import Mathlib

/-!
# Verification of the `fetch-links` link extractor

Shallow embedding of `src/helpers/fetch-links/src/lib.rs`:

* `extract_links` / `extract_links?` — the extraction routine itself
  (`extract_links` in the Rust source), built from
  * a lenient HTML document parser (`Html.parse_document`, modelling the
    `scraper`/html5ever document parser: tolerant tokenizer plus a
    stack-based tree builder that repairs unclosed and mismatched tags),
  * CSS-selector construction and matching (`Selector.parse`,
    `Selector.matches`, `Node.selectMany`, modelling
    `Selector::parse("a[href]")` and `Html::select`: depth-first
    document-order traversal filtered by tag name and attribute presence),
  * a URL model (`Url.parse`, `Url.join`, `Url.toString`), and
* `normalize_link_text` — whitespace normalization
  (`text.split_whitespace().collect::<Vec<_>>().join(" ")`).

The URL operations live in the external `url` crate, whose source is not
part of this repository; they are modelled from the spec: absolute parsing
of hierarchical `scheme://host/path?query#fragment` URLs, and RFC 3986
§5.2 reference resolution against a base (relative path, protocol-relative,
fragment-only and query-only forms). The model covers hosts without
userinfo or port, which is all the extractor's contract exercises.

Machine strings are `String` = lists of `Char`; all definitions are
executable so concrete scenarios evaluate by `decide`/`rfl`.
-/

/-! ## Character-level helpers -/

/-- The double-quote character (written via its code point so that string
scanning stays simple). -/
def dquote : Char := Char.ofNat 34

/-- Split a list at the first character satisfying `p`:
returns (longest prefix with `¬p`, remaining suffix). -/
def takeUntil (p : Char → Bool) (l : List Char) : List Char × List Char :=
  (l.takeWhile (fun c => !p c), l.dropWhile (fun c => !p c))

/-- Split a character list on every occurrence of `sep`
(mirrors `str::split` — `"".split` gives one empty piece). -/
def splitChar (sep : Char) : List Char → List (List Char)
  | [] => [[]]
  | c :: cs =>
    if c == sep then [] :: splitChar sep cs
    else
      match splitChar sep cs with
      | [] => [[c]]
      | t :: ts => (c :: t) :: ts

/-- Join character lists with a single separator character
(mirrors `[&str]::join` on one-character separators). -/
def joinWith (sep : Char) : List (List Char) → List Char
  | [] => []
  | [t] => t
  | t :: ts => t ++ sep :: joinWith sep ts

/-! ## URL model

Modelled from the spec: the hierarchical URLs and the RFC 3986 §5.2
resolution rules that the external `url` crate implements for
`Url::parse`, `Url::join` and `Url::to_string`. -/

/-- A parsed hierarchical absolute URL: `scheme://host/seg0/seg1...?query#fragment`.
The path is the list of segments between the slashes; it is never empty
(a bare origin has the single empty segment, serialized as `/`). -/
structure Url where
  scheme : String
  host : String
  path : List String
  query : Option String
  fragment : Option String
deriving DecidableEq, Repr

/-- Characters allowed after the first character of a scheme. -/
def isSchemeChar (c : Char) : Bool :=
  c.isAlphanum || c == '+' || c == '-' || c == '.'

/-- A valid scheme: one letter followed by scheme characters. -/
def validScheme (s : String) : Bool :=
  match s.data with
  | [] => false
  | c :: rest => c.isAlpha && rest.all isSchemeChar

/-- Characters the model admits in a registered host name. -/
def isHostChar (c : Char) : Bool :=
  c.isAlphanum || c == '.' || c == '-'

/-- A valid host: nonempty, made of host characters. -/
def validHost (h : String) : Bool :=
  !h.data.isEmpty && h.data.all isHostChar

/-- A path-segment character: anything but the `/`, `?`, `#` delimiters. -/
def isSegChar (c : Char) : Bool :=
  !(c == '/' || c == '?' || c == '#')

/-- A valid path segment contains no delimiter characters. -/
def validSeg (s : String) : Bool := s.data.all isSegChar

/-- A query-string character: anything but the fragment delimiter `#`. -/
def isQueryChar (c : Char) : Bool := !(c == '#')

/-- A valid query contains no `#`. -/
def validQuery (q : String) : Bool := q.data.all isQueryChar

/-- Well-formedness of a `Url` value: the invariant the `url` crate
maintains for every URL it hands out. -/
def Url.Valid (u : Url) : Bool :=
  validScheme u.scheme && validHost u.host && !u.path.isEmpty &&
    u.path.all validSeg &&
    (match u.query with
     | some q => validQuery q
     | none => true)

/-- Smart constructor: the parser and the resolver only ever produce
well-formed URLs, anything else is a parse/resolution failure. -/
def mkUrl (scheme host : String) (path : List String) (query fragment : Option String) :
    Option Url :=
  let u : Url := ⟨scheme, host, path, query, fragment⟩
  if u.Valid then some u else none

/-- Canonical serialization (`Url::to_string`):
`scheme://host/` + segments joined by `/` + `?query` + `#fragment`. -/
def Url.toString (u : Url) : String :=
  String.mk (u.scheme.data ++ ':' :: '/' :: '/' :: u.host.data
    ++ '/' :: joinWith '/' (u.path.map String.data)
    ++ (match u.query with
        | some q => '?' :: q.data
        | none => [])
    ++ (match u.fragment with
        | some f => '#' :: f.data
        | none => []))

/-- Stop characters ending a scheme: `:` closes it, `/?#` rule it out. -/
def isSchemeEnd (c : Char) : Bool :=
  c == ':' || c == '/' || c == '?' || c == '#'

/-- Stop characters ending a host. -/
def isHostEnd (c : Char) : Bool :=
  c == '/' || c == '?' || c == '#'

/-- Stop characters ending the path part. -/
def isPathEnd (c : Char) : Bool :=
  c == '?' || c == '#'

/-- Read a leading `scheme:` if present and valid; returns the scheme and
the characters after the colon. -/
def parseSchemeSplit (cs : List Char) : Option (String × List Char) :=
  match takeUntil isSchemeEnd cs with
  | (schemeCs, ':' :: rest) =>
    if validScheme (String.mk schemeCs) then some (String.mk schemeCs, rest) else none
  | _ => none

/-- Read a leading `//host` authority if present; returns the host text and
the characters after it. -/
def parseHier (cs : List Char) : Option (String × List Char) :=
  match cs with
  | '/' :: '/' :: rest =>
    match takeUntil isHostEnd rest with
    | (hostCs, rest2) => some (String.mk hostCs, rest2)
  | _ => none

/-- Split the remainder after the authority into raw path characters,
optional query and optional fragment. -/
def parsePQF (cs : List Char) : List Char × Option String × Option String :=
  match takeUntil isPathEnd cs with
  | (pathCs, '?' :: rest2) =>
    (match takeUntil (fun c => c == '#') rest2 with
     | (qCs, '#' :: f) => (pathCs, some (String.mk qCs), some (String.mk f))
     | (qCs, _) => (pathCs, some (String.mk qCs), none))
  | (pathCs, '#' :: f) => (pathCs, none, some (String.mk f))
  | (pathCs, _) => (pathCs, none, none)

/-- RFC 3986 §5.2.4 remove-dot-segments, on segment lists.  `.` segments
vanish, `..` pops the previous segment; a trailing dot segment leaves a
trailing empty segment (a trailing slash). -/
def rds (acc : List String) : List String → List String
  | [] => acc
  | [s] =>
    if s == "." then acc ++ [""]
    else if s == ".." then acc.dropLast ++ [""]
    else acc ++ [s]
  | s :: rest =>
    if s == "." then rds acc rest
    else if s == ".." then rds (acc.dropLast) rest
    else rds (acc ++ [s]) rest

/-- Segments of a slash-separated path text. -/
def splitSegs (cs : List Char) : List String :=
  (splitChar '/' cs).map String.mk

/-- Segments of the raw path following an authority: empty means the root
path `/`; otherwise it starts with `/` and is split on `/` and
dot-normalized. -/
def absSegs (pathCs : List Char) : List String :=
  match pathCs with
  | [] => [""]
  | '/' :: rest => rds [] (splitSegs rest)
  | p => rds [] (splitSegs p)

/-- `Url::parse`: absolute hierarchical URL parsing —
`scheme:` then `//host` then path, query, fragment. -/
def Url.parse (s : String) : Option Url :=
  (parseSchemeSplit s.data).bind fun sr =>
    (parseHier sr.2).bind fun hr =>
      match parsePQF hr.2 with
      | (pathCs, q, f) => mkUrl sr.1 hr.1 (absSegs pathCs) q f

/-- A URL reference as decomposed by RFC 3986 §5.2.1: optional scheme,
optional authority, raw path characters, optional query and fragment.
Every string decomposes into some reference. -/
structure UrlRef where
  scheme : Option String
  host : Option String
  pathCs : List Char
  query : Option String
  fragment : Option String

/-- Decompose a reference string into its components. An invalid scheme
prefix (e.g. `ht!tp://…`) is not a scheme at all and the whole text is
read as a path, as the WHATWG parser's pointer reset does. -/
def parseRef (cs : List Char) : UrlRef :=
  let scRest : Option String × List Char :=
    match parseSchemeSplit cs with
    | some (sc, r) => (some sc, r)
    | none => (none, cs)
  match parseHier scRest.2 with
  | some (host, rest2) =>
    match parsePQF rest2 with
    | (p, q, f) => ⟨scRest.1, some host, p, q, f⟩
  | none =>
    match parsePQF scRest.2 with
    | (p, q, f) => ⟨scRest.1, none, p, q, f⟩

/-- RFC 3986 §5.2.2 transform-references: merge a decomposed reference
with the base URL. The model requires an authority whenever a scheme is
present (the hierarchical case, which is all the extractor exercises). -/
def resolve (b : Url) (r : UrlRef) : Option Url :=
  match r.scheme, r.host with
  | some sc, some h => mkUrl sc h (absSegs r.pathCs) r.query r.fragment
  | some _, none => none
  | none, some h => mkUrl b.scheme h (absSegs r.pathCs) r.query r.fragment
  | none, none =>
    match r.pathCs with
    | [] =>
      mkUrl b.scheme b.host b.path
        (match r.query with
         | some q => some q
         | none => b.query)
        r.fragment
    | '/' :: rest => mkUrl b.scheme b.host (rds [] (splitSegs rest)) r.query r.fragment
    | p => mkUrl b.scheme b.host (rds [] (b.path.dropLast ++ splitSegs p)) r.query r.fragment

/-- `Url::join`: resolve a reference string against this base URL. -/
def Url.join (base : Url) (input : String) : Option Url :=
  resolve base (parseRef input.data)

/-! ## HTML document model

Models `scraper::Html::parse_document`: a tolerant tokenizer and a
stack-based tree builder that auto-closes unclosed elements and ignores
stray close tags (the html5ever error-recovery behavior the spec calls
lenient parsing). The implied `html`/`head`/`body` wrapper elements are
elided; they carry no attributes and never affect anchor selection. -/

/-- A node of the parsed document tree: text, or an element with its tag
name, attribute list and children. -/
inductive Node where
  | text (s : String)
  | elem (tag : String) (attrs : List (String × String)) (children : List Node)

/-- First value bound to an attribute name, as `Element::attr` returns. -/
def attrsLookup (name : String) : List (String × String) → Option String
  | [] => none
  | (k, v) :: rest => if k == name then some v else attrsLookup name rest

/-- `Element::attr`: the attribute's value on an element node. -/
def Node.attr (n : Node) (name : String) : Option String :=
  match n with
  | .text _ => none
  | .elem _ attrs _ => attrsLookup name attrs

mutual

/-- Concatenated text content of a node and its descendants in document
order (`ElementRef::text` collected into a `String`). -/
def Node.textContent : Node → String
  | .text s => s
  | .elem _ _ children => Node.textContentMany children

/-- Concatenated text content of a forest, in order. -/
def Node.textContentMany : List Node → String
  | [] => ""
  | n :: ns => Node.textContent n ++ Node.textContentMany ns

end

mutual

/-- Pre-order (document-order, depth-first) traversal of a node. -/
def Node.preorder : Node → List Node
  | .text s => [.text s]
  | .elem tag attrs children => .elem tag attrs children :: Node.preorderMany children

/-- Pre-order traversal of a forest. -/
def Node.preorderMany : List Node → List Node
  | [] => []
  | n :: ns => Node.preorder n ++ Node.preorderMany ns

end

/-! ### CSS selector -/

/-- The compiled form of a `tag[attr]` CSS selector — the only shape the
extractor uses (`"a[href]"`). -/
structure Selector where
  tag : String
  attrName : String
deriving DecidableEq

/-- A tag-name or attribute-name character. -/
def isNameChar (c : Char) : Bool :=
  c.isAlphanum || c == '-' || c == '_'

/-- `Selector::parse` for the `tag[attr]` shape; malformed selector text
is rejected (the Rust caller unwraps the result). -/
def Selector.parse (s : String) : Option Selector :=
  match takeUntil (fun c => c == '[') s.data with
  | (tagCs, '[' :: rest) =>
    match takeUntil (fun c => c == ']') rest with
    | (attrCs, [']']) =>
      if !tagCs.isEmpty && !attrCs.isEmpty && tagCs.all isNameChar && attrCs.all isNameChar
      then some ⟨String.mk tagCs, String.mk attrCs⟩
      else none
    | _ => none
  | _ => none

/-- Whether a node matches a `tag[attr]` selector: an element with that
tag name carrying the attribute. -/
def Selector.matches (sel : Selector) (n : Node) : Bool :=
  match n with
  | .text _ => false
  | .elem tag attrs _ => tag == sel.tag && (attrsLookup sel.attrName attrs).isSome

/-- `Html::select`: the document-order sequence of elements of a forest
matching the selector. -/
def Node.selectMany (sel : Selector) (ns : List Node) : List Node :=
  (Node.preorderMany ns).filter (fun n => sel.matches n)

/-! ### Tokenizer -/

/-- An HTML token: a text run, an open tag with attributes, a close tag. -/
inductive Tok where
  | text (s : String)
  | openTag (tag : String) (attrs : List (String × String))
  | closeTag (tag : String)

/-- Stop characters ending an attribute or tag name. -/
def isAttrNameEnd (c : Char) : Bool :=
  c.isWhitespace || c == '=' || c == '>' || c == '/'

/-- Read the attribute list of an open tag up to and past the closing `>`:
names, optionally `=`-bound to a double-quoted or unquoted value; stray
characters are skipped (lenient tokenization). Fuel bounds recursion. -/
def readAttrs : Nat → List Char → List (String × String) × List Char
  | 0, cs => ([], cs)
  | fuel+1, cs =>
    match cs.dropWhile Char.isWhitespace with
    | [] => ([], [])
    | '>' :: rest => ([], rest)
    | '/' :: rest => readAttrs fuel rest
    | cs2 =>
      match takeUntil isAttrNameEnd cs2 with
      | ([], rest) => readAttrs fuel (rest.drop 1)
      | (nameCs, '=' :: rest2) =>
        match rest2 with
        | [] => ([(String.mk nameCs, "")], [])
        | c :: rest3 =>
          if c == dquote then
            match takeUntil (fun d => d == dquote) rest3 with
            | (vCs, rest4) =>
              match readAttrs fuel (rest4.drop 1) with
              | (attrs1, rest5) => ((String.mk nameCs, String.mk vCs) :: attrs1, rest5)
          else
            match takeUntil (fun d => d.isWhitespace || d == '>') rest2 with
            | (vCs, rest4) =>
              match readAttrs fuel rest4 with
              | (attrs1, rest5) => ((String.mk nameCs, String.mk vCs) :: attrs1, rest5)
      | (nameCs, rest) =>
        match readAttrs fuel rest with
        | (attrs1, rest5) => ((String.mk nameCs, "") :: attrs1, rest5)

/-- Tokenize HTML text: `</name>` close tags, `<name attrs>` open tags,
anything else a text run. Fuel bounds recursion; one call's fuel equal to
the input length always suffices. -/
def tokenize : Nat → List Char → List Tok
  | 0, _ => []
  | _, [] => []
  | fuel+1, '<' :: '/' :: cs =>
    match takeUntil (fun c => c == '>') cs with
    | (nameCs, rest) => Tok.closeTag (String.mk nameCs) :: tokenize fuel (rest.drop 1)
  | fuel+1, '<' :: cs =>
    match takeUntil isAttrNameEnd cs with
    | (nameCs, rest) =>
      match readAttrs (fuel+1) rest with
      | (attrs1, rest2) => Tok.openTag (String.mk nameCs) attrs1 :: tokenize fuel rest2
  | fuel+1, cs =>
    match takeUntil (fun c => c == '<') cs with
    | (txt, rest) => Tok.text (String.mk txt) :: tokenize fuel rest

/-! ### Tree builder -/

/-- An open element awaiting its close tag: tag, attributes and the
children built so far. -/
structure Frame where
  tag : String
  attrs : List (String × String)
  children : List Node

/-- Close a frame into an element node. -/
def closeFrame (f : Frame) : Node :=
  Node.elem f.tag f.attrs f.children

/-- Builder state: the completed root-level nodes, and the stack of open
frames, innermost first. -/
abbrev BuildSt := List Node × List Frame

/-- Attach a finished node to the innermost open frame, or to the root. -/
def pushNode (n : Node) : BuildSt → BuildSt
  | (root, []) => (root ++ [n], [])
  | (root, f :: fs) => (root, { f with children := f.children ++ [n] } :: fs)

/-- Close the innermost open frame. -/
def popFrame : BuildSt → BuildSt
  | (root, []) => (root, [])
  | (root, f :: fs) => pushNode (closeFrame f) (root, fs)

/-- Close open frames up to and including the one with the given tag
(implicitly closing anything nested inside it). Fuel bounds recursion. -/
def popUntil (t : String) : Nat → BuildSt → BuildSt
  | 0, st => st
  | _+1, (root, []) => (root, [])
  | fuel+1, (root, f :: fs) =>
    if f.tag == t then popFrame (root, f :: fs)
    else popUntil t fuel (popFrame (root, f :: fs))

/-- Process the token stream: text attaches to the open element, an open
tag pushes a frame, a close tag pops to its matching open frame and is
ignored when nothing matches (lenient recovery). -/
def build : List Tok → BuildSt → BuildSt
  | [], st => st
  | Tok.text s :: ts, st => build ts (pushNode (Node.text s) st)
  | Tok.openTag t a :: ts, (root, fs) => build ts (root, ⟨t, a, []⟩ :: fs)
  | Tok.closeTag t :: ts, (root, fs) =>
    if fs.any (fun f => f.tag == t) then build ts (popUntil t fs.length (root, fs))
    else build ts (root, fs)

/-- Close every frame still open at end of input (auto-repair of unclosed
tags). Fuel bounds recursion. -/
def closeAll : Nat → BuildSt → List Node
  | 0, st => st.1
  | _+1, (root, []) => root
  | fuel+1, st => closeAll fuel (popFrame st)

/-- `Html::parse_document`: tokenize then build the tree. Total on every
string — lenient parsing never fails. -/
def Html.parse_document (html : String) : List Node :=
  let toks := tokenize (html.data.length + 1) html.data
  let st := build toks ([], [])
  closeAll (st.2.length + 1) st

/-! ## Text normalization -/

/-- The maximal whitespace-free runs of a character list, in order —
the token stream of Rust's `str::split_whitespace`. -/
def wsTokens : List Char → List (List Char)
  | [] => []
  | c :: cs =>
    if c.isWhitespace then wsTokens cs
    else
      match cs with
      | [] => [[c]]
      | d :: _ =>
        if d.isWhitespace then [c] :: wsTokens cs
        else
          match wsTokens cs with
          | [] => [[c]]
          | t :: ts => (c :: t) :: ts

/-- `normalize_link_text`: `text.split_whitespace().collect::<Vec<_>>().join(" ")` —
the whitespace-delimited tokens rejoined with single spaces. -/
def normalize_link_text (text : String) : String :=
  String.mk (joinWith ' ' (wsTokens text.data))

/-! ## The extractor -/

/-- The record the extractor emits per qualifying anchor: resolved
absolute URL text and normalized link text. -/
structure LinkInfo where
  url : String
  text : String
deriving DecidableEq, Repr

/-- `extract_links`, with the one fallible step kept visible:
`Selector::parse("a[href]").unwrap()` panics on `None`, so the model
returns `none` exactly when the Rust would panic (it never does —
see the safety theorem). -/
def extract_links? (html : String) (base_url : Url) : Option (List LinkInfo) :=
  let document := Html.parse_document html
  (Selector.parse "a[href]").map fun selector =>
    (Node.selectMany selector document).filterMap fun element =>
      (Node.attr element "href").bind fun href =>
        ((Url.parse href).orElse fun _ => Url.join base_url href).bind fun url =>
          some { url := url.toString, text := normalize_link_text (Node.textContent element) }

/-- `extract_links` as the caller sees it: the selector parse always
succeeds, so the default is never taken. -/
def extract_links (html : String) (base_url : Url) : List LinkInfo :=
  (extract_links? html base_url).getD []

/-! ## Specification-side definitions -/

/-- The anchor elements carrying an `href` attribute, in document order —
what `document.select(&selector)` iterates for the `a[href]` selector. -/
def anchorElems (html : String) : List Node :=
  Node.selectMany ⟨"a", "href"⟩ (Html.parse_document html)

/-- The per-element step of the extractor: read `href`, resolve it
(absolute parse first, else join against the base), emit the record. -/
def emitLink (base_url : Url) (element : Node) : Option LinkInfo :=
  (Node.attr element "href").bind fun href =>
    ((Url.parse href).orElse fun _ => Url.join base_url href).bind fun url =>
      some { url := url.toString, text := normalize_link_text (Node.textContent element) }

/-! ## Lemmas: scanning -/

theorem takeWhile_append_all {q : Char → Bool} {xs ys : List Char}
    (h : ∀ x ∈ xs, q x = true) :
    (xs ++ ys).takeWhile q = xs ++ ys.takeWhile q := by
  induction xs with
  | nil => simp
  | cons a as ih =>
    simp only [List.cons_append]
    rw [List.takeWhile_cons_of_pos (h a (by simp)), ih (fun x hx => h x (by simp [hx]))]

theorem dropWhile_append_all {q : Char → Bool} {xs ys : List Char}
    (h : ∀ x ∈ xs, q x = true) :
    (xs ++ ys).dropWhile q = ys.dropWhile q := by
  induction xs with
  | nil => simp
  | cons a as ih =>
    simp only [List.cons_append]
    rw [List.dropWhile_cons_of_pos (h a (by simp)), ih (fun x hx => h x (by simp [hx]))]

/-- `takeUntil` splits exactly at the first stop character. -/
theorem takeUntil_break {p : Char → Bool} {xs ys : List Char} {y : Char}
    (h : ∀ x ∈ xs, p x = false) (hy : p y = true) :
    takeUntil p (xs ++ y :: ys) = (xs, y :: ys) := by
  have hall : ∀ x ∈ xs, (!p x) = true := fun x hx => by simp [h x hx]
  unfold takeUntil
  rw [takeWhile_append_all hall, dropWhile_append_all hall,
    List.takeWhile_cons_of_neg (by simp [hy]), List.dropWhile_cons_of_neg (by simp [hy])]
  simp

/-- `takeUntil` consumes everything when no character stops it. -/
theorem takeUntil_all {p : Char → Bool} {xs : List Char}
    (h : ∀ x ∈ xs, p x = false) :
    takeUntil p xs = (xs, []) := by
  have hall : ∀ x ∈ xs, (!p x) = true := fun x hx => by simp [h x hx]
  unfold takeUntil
  rw [List.takeWhile_eq_self_iff.mpr hall, List.dropWhile_eq_nil_iff.mpr hall]

/-! ## Lemmas: character classes -/

theorem schemeEnd_false_of_schemeChar {c : Char} (h : isSchemeChar c = true) :
    isSchemeEnd c = false := by
  by_cases h1 : c = ':'
  · subst h1; exact absurd h (by decide)
  by_cases h2 : c = '/'
  · subst h2; exact absurd h (by decide)
  by_cases h3 : c = '?'
  · subst h3; exact absurd h (by decide)
  by_cases h4 : c = '#'
  · subst h4; exact absurd h (by decide)
  simp [isSchemeEnd, h1, h2, h3, h4]

theorem schemeChar_of_alpha {c : Char} (h : c.isAlpha = true) : isSchemeChar c = true := by
  simp [isSchemeChar, Char.isAlphanum, h]

/-- Every character of a valid scheme is a scheme character. -/
theorem schemeChars_of_validScheme {s : String} (h : validScheme s = true) :
    ∀ c ∈ s.data, isSchemeChar c = true := by
  unfold validScheme at h
  match hs : s.data with
  | [] => rw [hs] at h; exact absurd h (by decide)
  | c0 :: rest =>
    rw [hs] at h
    simp only [Bool.and_eq_true] at h
    intro c hc
    rcases List.mem_cons.mp hc with h1 | h1
    · subst h1; exact schemeChar_of_alpha h.1
    · exact List.all_eq_true.mp h.2 c h1

theorem hostEnd_false_of_hostChar {c : Char} (h : isHostChar c = true) :
    isHostEnd c = false := by
  by_cases h1 : c = '/'
  · subst h1; exact absurd h (by decide)
  by_cases h2 : c = '?'
  · subst h2; exact absurd h (by decide)
  by_cases h3 : c = '#'
  · subst h3; exact absurd h (by decide)
  simp [isHostEnd, h1, h2, h3]

theorem pathEnd_false_of_segChar {c : Char} (h : isSegChar c = true) :
    isPathEnd c = false := by
  simp only [isSegChar, Bool.not_eq_true', Bool.or_eq_false_iff] at h
  simp [isPathEnd, h.1.2, h.2]

theorem segChar_slash_false {c : Char} (h : isSegChar c = true) : (c == '/') = false := by
  simp only [isSegChar, Bool.not_eq_true', Bool.or_eq_false_iff] at h
  exact h.1.1

/-! ## Lemmas: joinWith and splitChar -/

/-- Characters of a joined list come from the pieces or are the separator. -/
theorem mem_joinWith {sep : Char} {ts : List (List Char)} {c : Char}
    (h : c ∈ joinWith sep ts) : c = sep ∨ ∃ t ∈ ts, c ∈ t := by
  induction ts with
  | nil => simp [joinWith] at h
  | cons t ts ih =>
    match ts with
    | [] =>
      simp only [joinWith] at h
      exact Or.inr ⟨t, by simp, h⟩
    | t' :: ts' =>
      simp only [joinWith, List.mem_append, List.mem_cons] at h
      rcases h with h | h | h
      · exact Or.inr ⟨t, by simp, h⟩
      · exact Or.inl h
      · rcases ih h with h2 | ⟨u, hu, hcu⟩
        · exact Or.inl h2
        · exact Or.inr ⟨u, by simp [hu], hcu⟩

/-- `splitChar` never produces an empty list of pieces. -/
theorem splitChar_ne_nil (sep : Char) (l : List Char) : splitChar sep l ≠ [] := by
  induction l with
  | nil => simp [splitChar]
  | cons c cs ih =>
    unfold splitChar
    by_cases h : (c == sep) = true
    · simp [h]
    · simp only [Bool.not_eq_true] at h
      simp only [h]
      match hs : splitChar sep cs with
      | [] => simp
      | t :: ts => simp

/-- Characters of the pieces of `splitChar` come from the input and are
never the separator. -/
theorem mem_splitChar {sep : Char} {l : List Char} {t : List Char} {c : Char}
    (ht : t ∈ splitChar sep l) (hc : c ∈ t) : c ∈ l ∧ ¬c = sep := by
  induction l generalizing t with
  | nil =>
    simp only [splitChar, List.mem_singleton] at ht
    subst ht
    exact absurd hc (List.not_mem_nil c)
  | cons a as ih =>
    unfold splitChar at ht
    by_cases h : (a == sep) = true
    · rw [if_pos h] at ht
      rcases List.mem_cons.mp ht with ht1 | ht1
      · subst ht1
        exact absurd hc (List.not_mem_nil c)
      · have h2 := ih ht1 hc
        exact ⟨List.mem_cons_of_mem a h2.1, h2.2⟩
    · obtain ⟨t0, ts, hs⟩ := List.exists_cons_of_ne_nil (splitChar_ne_nil sep as)
      rw [if_neg h, hs] at ht
      have hane : ¬a = sep := by
        intro he
        exact h (by simp [he])
      rcases List.mem_cons.mp ht with ht1 | ht1
      · subst ht1
        rcases List.mem_cons.mp hc with hc1 | hc1
        · rw [hc1]
          exact ⟨List.mem_cons_self a as, hane⟩
        · have h2 := ih (hs ▸ List.mem_cons_self t0 ts) hc1
          exact ⟨List.mem_cons_of_mem a h2.1, h2.2⟩
      · have h2 := ih (hs ▸ List.mem_cons_of_mem t0 ht1) hc
        exact ⟨List.mem_cons_of_mem a h2.1, h2.2⟩

/-! ## Lemmas: remove-dot-segments -/

/-- Members of an `rds` result come from the accumulator or the input, or
are the empty segment a trailing dot segment leaves behind. -/
theorem mem_rds : ∀ (l acc : List String) {s : String}, s ∈ rds acc l →
    s ∈ acc ∨ s ∈ l ∨ s = ""
  | [], acc, s, h => Or.inl (by rw [rds] at h; exact h)
  | [x], acc, s, h => by
    have he : rds acc [x] =
        if x == "." then acc ++ [""]
        else if x == ".." then acc.dropLast ++ [""]
        else acc ++ [x] := rfl
    rw [he] at h
    split at h
    · rcases List.mem_append.mp h with h1 | h1
      · exact Or.inl h1
      · exact Or.inr (Or.inr (List.mem_singleton.mp h1))
    · split at h
      · rcases List.mem_append.mp h with h1 | h1
        · exact Or.inl (List.mem_of_mem_dropLast h1)
        · exact Or.inr (Or.inr (List.mem_singleton.mp h1))
      · rcases List.mem_append.mp h with h1 | h1
        · exact Or.inl h1
        · exact Or.inr (Or.inl h1)
  | x :: y :: rest, acc, s, h => by
    have he : rds acc (x :: y :: rest) =
        if x == "." then rds acc (y :: rest)
        else if x == ".." then rds acc.dropLast (y :: rest)
        else rds (acc ++ [x]) (y :: rest) := rfl
    rw [he] at h
    split at h
    · rcases mem_rds (y :: rest) acc h with h1 | h1 | h1
      · exact Or.inl h1
      · exact Or.inr (Or.inl (List.mem_cons_of_mem x h1))
      · exact Or.inr (Or.inr h1)
    · split at h
      · rcases mem_rds (y :: rest) acc.dropLast h with h1 | h1 | h1
        · exact Or.inl (List.mem_of_mem_dropLast h1)
        · exact Or.inr (Or.inl (List.mem_cons_of_mem x h1))
        · exact Or.inr (Or.inr h1)
      · rcases mem_rds (y :: rest) (acc ++ [x]) h with h1 | h1 | h1
        · rcases List.mem_append.mp h1 with h2 | h2
          · exact Or.inl h2
          · exact Or.inr (Or.inl (List.mem_cons.mpr (Or.inl (List.mem_singleton.mp h2))))
        · exact Or.inr (Or.inl (List.mem_cons_of_mem x h1))
        · exact Or.inr (Or.inr h1)

/-- `rds` of a nonempty input is nonempty. -/
theorem rds_ne_nil : ∀ (l acc : List String), l ≠ [] → rds acc l ≠ []
  | [], _, h => absurd rfl h
  | [x], acc, _ => by
    have he : rds acc [x] =
        if x == "." then acc ++ [""]
        else if x == ".." then acc.dropLast ++ [""]
        else acc ++ [x] := rfl
    rw [he]
    split
    · simp
    · split <;> simp
  | x :: y :: rest, acc, _ => by
    have he : rds acc (x :: y :: rest) =
        if x == "." then rds acc (y :: rest)
        else if x == ".." then rds acc.dropLast (y :: rest)
        else rds (acc ++ [x]) (y :: rest) := rfl
    rw [he]
    split
    · exact rds_ne_nil (y :: rest) acc (by simp)
    · split
      · exact rds_ne_nil (y :: rest) acc.dropLast (by simp)
      · exact rds_ne_nil (y :: rest) (acc ++ [x]) (by simp)

/-! ## Lemmas: URL validity -/

theorem mkUrl_valid {a b : String} {p : List String} {q f : Option String} {u : Url}
    (h : mkUrl a b p q f = some u) : u.Valid = true := by
  simp only [mkUrl] at h
  split at h
  · obtain rfl := (Option.some.injEq _ _).mp h
    assumption
  · exact absurd h (by simp)

/-- `Url.parse` only produces well-formed URLs. -/
theorem parse_valid {s : String} {u : Url} (h : Url.parse s = some u) : u.Valid = true := by
  unfold Url.parse at h
  rcases Option.bind_eq_some.mp h with ⟨sr, _, h2⟩
  rcases Option.bind_eq_some.mp h2 with ⟨hr, _, h4⟩
  exact mkUrl_valid h4

/-- `resolve` only produces well-formed URLs. -/
theorem resolve_valid {b : Url} {r : UrlRef} {u : Url} (h : resolve b r = some u) :
    u.Valid = true := by
  unfold resolve at h
  split at h
  · exact mkUrl_valid h
  · exact absurd h (by simp)
  · exact mkUrl_valid h
  · split at h
    · exact mkUrl_valid h
    · exact mkUrl_valid h
    · exact mkUrl_valid h

/-- `Url.join` only produces well-formed URLs. -/
theorem join_valid {b : Url} {s : String} {u : Url} (h : Url.join b s = some u) :
    u.Valid = true :=
  resolve_valid h

/-! ## Lemmas: serialized URLs parse back -/

/-- Characters of a serialized valid path are the separator or segment
characters. -/
theorem pathChars_ok {path : List String} (hall : path.all validSeg = true) :
    ∀ c ∈ joinWith '/' (path.map String.data), c = '/' ∨ isSegChar c = true := by
  intro c hc
  rcases mem_joinWith hc with h | ⟨t, ht, hct⟩
  · exact Or.inl h
  · obtain ⟨s, hs, rfl⟩ := List.mem_map.mp ht
    have h2 := List.all_eq_true.mp hall s hs
    exact Or.inr (List.all_eq_true.mp h2 c hct)

/-- Splitting a slash/segment-character text gives valid segments. -/
theorem splitSegs_valid {P : List Char} (hP : ∀ c ∈ P, c = '/' ∨ isSegChar c = true) :
    (splitSegs P).all validSeg = true := by
  refine List.all_eq_true.mpr ?_
  intro s hs
  unfold splitSegs at hs
  obtain ⟨t, ht, rfl⟩ := List.mem_map.mp hs
  refine List.all_eq_true.mpr ?_
  intro c hct
  have hct' : c ∈ t := hct
  have hc := mem_splitChar ht hct'
  rcases hP c hc.1 with h1 | h1
  · exact absurd h1 hc.2
  · exact h1

theorem splitSegs_ne_nil (P : List Char) : splitSegs P ≠ [] := by
  unfold splitSegs
  intro h
  obtain ⟨t0, ts, hs⟩ := List.exists_cons_of_ne_nil (splitChar_ne_nil '/' P)
  rw [hs] at h
  exact absurd h (by simp)

/-- Re-splitting a serialized valid path yields only valid segments. -/
theorem rds_valid_of_seg {P : List Char} (hP : ∀ c ∈ P, c = '/' ∨ isSegChar c = true) :
    (rds [] (splitSegs P)).all validSeg = true := by
  refine List.all_eq_true.mpr ?_
  intro s hs
  rcases mem_rds _ _ hs with h1 | h1 | h1
  · exact absurd h1 (List.not_mem_nil s)
  · exact List.all_eq_true.mp (splitSegs_valid hP) s h1
  · rw [h1]
    decide

theorem parseSchemeSplit_serialized {sch : String} (hsch : validScheme sch = true)
    (rest : List Char) :
    parseSchemeSplit (sch.data ++ ':' :: rest) = some (sch, rest) := by
  unfold parseSchemeSplit
  rw [takeUntil_break
    (fun c hc => schemeEnd_false_of_schemeChar (schemeChars_of_validScheme hsch c hc))
    (by decide)]
  have he : String.mk sch.data = sch := rfl
  simp [he, hsch]

theorem parseHier_serialized {hst : String} (hhost : validHost hst = true)
    (rest : List Char) :
    parseHier ('/' :: '/' :: (hst.data ++ '/' :: rest)) = some (hst, '/' :: rest) := by
  have hchars : ∀ c ∈ hst.data, isHostEnd c = false := by
    intro c hc
    unfold validHost at hhost
    simp only [Bool.and_eq_true] at hhost
    exact hostEnd_false_of_hostChar (List.all_eq_true.mp hhost.2 c hc)
  have hbreak := @takeUntil_break isHostEnd hst.data rest '/' hchars (by decide)
  show (match takeUntil isHostEnd (hst.data ++ '/' :: rest) with
    | (hostCs, rest2) => some (String.mk hostCs, rest2)) = some (hst, '/' :: rest)
  rw [hbreak]

theorem parsePQF_all {cs : List Char} (h : ∀ c ∈ cs, isPathEnd c = false) :
    parsePQF cs = (cs, none, none) := by
  unfold parsePQF
  rw [takeUntil_all h]

theorem parsePQF_serialized_q {cs qd : List Char}
    (hcs : ∀ c ∈ cs, isPathEnd c = false) (hqd : ∀ c ∈ qd, isQueryChar c = true) :
    parsePQF (cs ++ '?' :: qd) = (cs, some (String.mk qd), none) := by
  unfold parsePQF
  rw [takeUntil_break hcs (by decide)]
  have hq2 : ∀ c ∈ qd, (fun c => c == '#') c = false := by
    intro c hc
    have h3 := hqd c hc
    unfold isQueryChar at h3
    simpa using h3
  simp only []
  rw [takeUntil_all hq2]

theorem parsePQF_serialized_f {cs fd : List Char}
    (hcs : ∀ c ∈ cs, isPathEnd c = false) :
    parsePQF (cs ++ '#' :: fd) = (cs, none, some (String.mk fd)) := by
  unfold parsePQF
  rw [takeUntil_break hcs (by decide)]
  exact rfl

theorem parsePQF_serialized_qf {cs qd fd : List Char}
    (hcs : ∀ c ∈ cs, isPathEnd c = false) (hqd : ∀ c ∈ qd, isQueryChar c = true) :
    parsePQF (cs ++ '?' :: (qd ++ '#' :: fd)) =
      (cs, some (String.mk qd), some (String.mk fd)) := by
  unfold parsePQF
  rw [takeUntil_break hcs (by decide)]
  have hq2 : ∀ c ∈ qd, (fun c => c == '#') c = false := by
    intro c hc
    have h3 := hqd c hc
    unfold isQueryChar at h3
    simpa using h3
  simp only []
  rw [takeUntil_break hq2 (by decide)]
  exact rfl

theorem mkUrl_isSome {sch hst : String} {pth : List String} {q f : Option String}
    (h1 : validScheme sch = true) (h2 : validHost hst = true) (h3 : pth ≠ [])
    (h4 : pth.all validSeg = true)
    (h5 : (match q with | some q0 => validQuery q0 | none => true) = true) :
    (mkUrl sch hst pth q f).isSome = true := by
  have hv : Url.Valid ⟨sch, hst, pth, q, f⟩ = true := by
    unfold Url.Valid
    simp only [Bool.and_eq_true]
    refine ⟨⟨⟨⟨h1, h2⟩, ?_⟩, h4⟩, h5⟩
    simpa using h3
  unfold mkUrl
  simp [hv]

/-- The serialization of a well-formed URL parses back: every URL string
this model emits is a syntactically valid absolute URL. -/
theorem parse_toString_isSome {u : Url} (h : u.Valid = true) :
    (Url.parse (Url.toString u)).isSome = true := by
  obtain ⟨sch, hst, pth, q, f⟩ := u
  unfold Url.Valid at h
  simp only [Bool.and_eq_true] at h
  obtain ⟨⟨⟨⟨hsch, hhost⟩, hpne⟩, hpall⟩, hq⟩ := h
  have hPchars2 : ∀ c ∈ '/' :: joinWith '/' (pth.map String.data), isPathEnd c = false := by
    intro c hc
    rcases List.mem_cons.mp hc with h1 | h1
    · rw [h1]; decide
    · rcases pathChars_ok hpall c h1 with h2 | h2
      · rw [h2]; decide
      · exact pathEnd_false_of_segChar h2
  have hmk : (mkUrl sch hst
      (rds [] (splitSegs (joinWith '/' (pth.map String.data)))) q f).isSome = true :=
    mkUrl_isSome hsch hhost
      (rds_ne_nil _ _ (splitSegs_ne_nil _))
      (rds_valid_of_seg (pathChars_ok hpall)) hq
  cases q with
  | none =>
    cases f with
    | none =>
      have hdata : (Url.toString ⟨sch, hst, pth, none, none⟩).data =
          sch.data ++ ':' :: ('/' :: '/' :: (hst.data ++ '/' ::
            joinWith '/' (pth.map String.data))) := by
        simp [Url.toString, List.append_assoc]
      unfold Url.parse
      rw [hdata, parseSchemeSplit_serialized hsch]
      simp only [Option.some_bind]
      rw [parseHier_serialized hhost]
      simp only [Option.some_bind]
      have hpqf : parsePQF ('/' :: joinWith '/' (pth.map String.data)) =
          ('/' :: joinWith '/' (pth.map String.data), none, none) :=
        parsePQF_all hPchars2
      rw [hpqf]
      exact hmk
    | some f0 =>
      have hdata : (Url.toString ⟨sch, hst, pth, none, some f0⟩).data =
          sch.data ++ ':' :: ('/' :: '/' :: (hst.data ++ '/' ::
            (joinWith '/' (pth.map String.data) ++ '#' :: f0.data))) := by
        simp [Url.toString, List.append_assoc]
      unfold Url.parse
      rw [hdata, parseSchemeSplit_serialized hsch]
      simp only [Option.some_bind]
      rw [parseHier_serialized hhost]
      simp only [Option.some_bind]
      have hpqf : parsePQF ('/' :: (joinWith '/' (pth.map String.data) ++ '#' :: f0.data)) =
          ('/' :: joinWith '/' (pth.map String.data), none, some f0) :=
        parsePQF_serialized_f hPchars2
      rw [hpqf]
      exact hmk
  | some q0 =>
    have hqd0 : ∀ c ∈ q0.data, isQueryChar c = true := by
      intro c hc
      exact List.all_eq_true.mp hq c hc
    cases f with
    | none =>
      have hdata : (Url.toString ⟨sch, hst, pth, some q0, none⟩).data =
          sch.data ++ ':' :: ('/' :: '/' :: (hst.data ++ '/' ::
            (joinWith '/' (pth.map String.data) ++ '?' :: q0.data))) := by
        simp [Url.toString, List.append_assoc]
      unfold Url.parse
      rw [hdata, parseSchemeSplit_serialized hsch]
      simp only [Option.some_bind]
      rw [parseHier_serialized hhost]
      simp only [Option.some_bind]
      have hpqf : parsePQF ('/' :: (joinWith '/' (pth.map String.data) ++ '?' :: q0.data)) =
          ('/' :: joinWith '/' (pth.map String.data), some q0, none) :=
        parsePQF_serialized_q hPchars2 hqd0
      rw [hpqf]
      exact hmk
    | some f0 =>
      have hdata : (Url.toString ⟨sch, hst, pth, some q0, some f0⟩).data =
          sch.data ++ ':' :: ('/' :: '/' :: (hst.data ++ '/' ::
            (joinWith '/' (pth.map String.data) ++ '?' :: (q0.data ++ '#' :: f0.data)))) := by
        simp [Url.toString, List.append_assoc]
      unfold Url.parse
      rw [hdata, parseSchemeSplit_serialized hsch]
      simp only [Option.some_bind]
      rw [parseHier_serialized hhost]
      simp only [Option.some_bind]
      have hpqf : parsePQF ('/' ::
          (joinWith '/' (pth.map String.data) ++ '?' :: (q0.data ++ '#' :: f0.data))) =
          ('/' :: joinWith '/' (pth.map String.data), some q0, some f0) :=
        parsePQF_serialized_qf hPchars2 hqd0
      rw [hpqf]
      exact hmk

/-! ## Lemmas: the extractor pipeline -/

/-- The hard-coded selector construction succeeds, on exactly the
`a[href]` selector. -/
theorem selector_parse_ahref : Selector.parse "a[href]" = some ⟨"a", "href"⟩ := by decide

/-- `extract_links` is the document-order anchor list filtered through the
per-element emission step. -/
theorem extract_links_eq (html : String) (base_url : Url) :
    extract_links html base_url = (anchorElems html).filterMap (emitLink base_url) := rfl

/-- The fallible view always succeeds, with the same result. -/
theorem extract_links?_eq (html : String) (base_url : Url) :
    extract_links? html base_url =
      some ((anchorElems html).filterMap (emitLink base_url)) := rfl

theorem matches_of_mem_selectMany {sel : Selector} {ns : List Node} {el : Node}
    (h : el ∈ Node.selectMany sel ns) : sel.matches el = true :=
  (List.mem_filter.mp h).2

/-- Every selected anchor carries an `href` attribute. -/
theorem attr_isSome_of_mem_anchorElems {html : String} {el : Node}
    (h : el ∈ anchorElems html) : (Node.attr el "href").isSome = true := by
  have hm := matches_of_mem_selectMany h
  cases el with
  | text s => exact absurd hm (by simp [Selector.matches])
  | elem tag attrs children =>
    unfold Selector.matches at hm
    simp only [Bool.and_eq_true] at hm
    exact hm.2

/-- An element without an `href` attribute emits nothing. -/
theorem emitLink_none_of_no_href {base : Url} {el : Node}
    (h : Node.attr el "href" = none) : emitLink base el = none := by
  unfold emitLink
  rw [h]
  rfl

/-- An absolutely-parsable `href` emits its canonical re-serialization —
whatever the base is, the base is not consulted. -/
theorem emitLink_absolute {base : Url} {el : Node} {href : String} {u : Url}
    (h1 : Node.attr el "href" = some href) (h2 : Url.parse href = some u) :
    emitLink base el = some ⟨u.toString, normalize_link_text (Node.textContent el)⟩ := by
  unfold emitLink
  rw [h1]
  simp only [Option.some_bind]
  rw [h2]
  rfl

/-- A relative `href` emits the resolution against the base. -/
theorem emitLink_relative {base : Url} {el : Node} {href : String} {u : Url}
    (h1 : Node.attr el "href" = some href) (h2 : Url.parse href = none)
    (h3 : Url.join base href = some u) :
    emitLink base el = some ⟨u.toString, normalize_link_text (Node.textContent el)⟩ := by
  unfold emitLink
  rw [h1]
  simp only [Option.some_bind]
  rw [h2]
  show (Url.join base href).bind _ = _
  rw [h3]
  rfl

/-- When both resolution attempts fail the element emits nothing. -/
theorem emitLink_skip {base : Url} {el : Node} {href : String}
    (h1 : Node.attr el "href" = some href) (h2 : Url.parse href = none)
    (h3 : Url.join base href = none) :
    emitLink base el = none := by
  unfold emitLink
  rw [h1]
  simp only [Option.some_bind]
  rw [h2]
  show (Url.join base href).bind _ = _
  rw [h3]
  rfl

/-- Inversion: an emitted record comes from an `href` that resolved, by
absolute parse or else by join, and carries that URL's serialization and
the element's normalized text. -/
theorem emitLink_some_inv {base : Url} {el : Node} {li : LinkInfo}
    (h : emitLink base el = some li) :
    ∃ href u, Node.attr el "href" = some href ∧
      (Url.parse href = some u ∨ (Url.parse href = none ∧ Url.join base href = some u)) ∧
      li = ⟨u.toString, normalize_link_text (Node.textContent el)⟩ := by
  unfold emitLink at h
  rcases Option.bind_eq_some.mp h with ⟨href, ha, h2⟩
  rcases Option.bind_eq_some.mp h2 with ⟨u, hres, h3⟩
  have hli := (Option.some.injEq _ _).mp h3
  refine ⟨href, u, ha, ?_, hli.symm⟩
  cases hp : Url.parse href with
  | some v =>
    left
    rw [hp] at hres
    exact hres
  | none =>
    right
    rw [hp] at hres
    exact ⟨rfl, hres⟩

/-- A skipped element contributes nothing and does not disturb the
entries of the elements around it. -/
theorem filterMap_skip {base : Url} {bad : Node} (pre post : List Node)
    (h : emitLink base bad = none) :
    (pre ++ bad :: post).filterMap (emitLink base) =
      pre.filterMap (emitLink base) ++ post.filterMap (emitLink base) := by
  rw [List.filterMap_append]
  congr 1
  rw [List.filterMap_cons]
  simp [h]


/-! ## Lemmas: whitespace tokens -/

theorem wsTokens_ws {c : Char} (hc : c.isWhitespace = true) (cs : List Char) :
    wsTokens (c :: cs) = wsTokens cs := by
  show (if c.isWhitespace = true then wsTokens cs
    else match cs with
      | [] => [[c]]
      | d :: _ =>
        if d.isWhitespace = true then [c] :: wsTokens cs
        else match wsTokens cs with
          | [] => [[c]]
          | t :: ts => (c :: t) :: ts) = wsTokens cs
  rw [if_pos hc]

theorem wsTokens_cons_single {c : Char} (hc : c.isWhitespace = false) :
    wsTokens [c] = [[c]] := by
  show (if c.isWhitespace = true then wsTokens [] else [[c]]) = [[c]]
  rw [if_neg (by simp [hc])]

theorem wsTokens_cons_ws {c d : Char} {cs : List Char}
    (hc : c.isWhitespace = false) (hd : d.isWhitespace = true) :
    wsTokens (c :: d :: cs) = [c] :: wsTokens (d :: cs) := by
  show (if c.isWhitespace = true then wsTokens (d :: cs)
    else if d.isWhitespace = true then [c] :: wsTokens (d :: cs)
    else match wsTokens (d :: cs) with
      | [] => [[c]]
      | t :: ts => (c :: t) :: ts) = [c] :: wsTokens (d :: cs)
  rw [if_neg (by simp [hc]), if_pos hd]

theorem wsTokens_cons_nws {c d : Char} {cs : List Char}
    (hc : c.isWhitespace = false) (hd : d.isWhitespace = false) :
    wsTokens (c :: d :: cs) =
      (match wsTokens (d :: cs) with
       | [] => [[c]]
       | t :: ts => (c :: t) :: ts) := by
  show (if c.isWhitespace = true then wsTokens (d :: cs)
    else if d.isWhitespace = true then [c] :: wsTokens (d :: cs)
    else match wsTokens (d :: cs) with
      | [] => [[c]]
      | t :: ts => (c :: t) :: ts) = _
  rw [if_neg (by simp [hc]), if_neg (by simp [hd])]

/-- Tokens produced by `wsTokens` are nonempty and whitespace-free. -/
theorem wsTokens_tokens_ok : ∀ (cs : List Char), ∀ t ∈ wsTokens cs,
    t ≠ [] ∧ ∀ c ∈ t, c.isWhitespace = false := by
  intro cs
  induction cs with
  | nil => intro t ht; exact absurd ht (by simp [wsTokens])
  | cons c cs ih =>
    intro t ht
    by_cases hw : c.isWhitespace = true
    · rw [wsTokens_ws hw] at ht
      exact ih t ht
    · have hw2 : c.isWhitespace = false := by simpa using hw
      cases cs with
      | nil =>
        rw [wsTokens_cons_single hw2] at ht
        rw [List.mem_singleton.mp ht]
        exact ⟨by simp, fun x hx => by rw [List.mem_singleton.mp hx]; exact hw2⟩
      | cons d cs2 =>
        by_cases hd : d.isWhitespace = true
        · rw [wsTokens_cons_ws hw2 hd] at ht
          rcases List.mem_cons.mp ht with h1 | h1
          · rw [h1]
            exact ⟨by simp, fun x hx => by rw [List.mem_singleton.mp hx]; exact hw2⟩
          · exact ih t h1
        · have hd2 : d.isWhitespace = false := by simpa using hd
          rw [wsTokens_cons_nws hw2 hd2] at ht
          rcases hs : wsTokens (d :: cs2) with _ | ⟨t0, ts⟩
          · rw [hs] at ht
            rw [List.mem_singleton.mp ht]
            exact ⟨by simp, fun x hx => by rw [List.mem_singleton.mp hx]; exact hw2⟩
          · rw [hs] at ht
            rcases List.mem_cons.mp ht with h1 | h1
            · have ht0 := ih t0 (by rw [hs]; exact List.mem_cons_self t0 ts)
              rw [h1]
              refine ⟨by simp, fun x hx => ?_⟩
              rcases List.mem_cons.mp hx with h2 | h2
              · rw [h2]; exact hw2
              · exact ht0.2 x h2
            · exact ih t (by rw [hs]; exact List.mem_cons_of_mem t0 h1)

/-- A whitespace-free nonempty token followed by a space scans off as one
token. -/
theorem wsTokens_append_sep {suffix : List Char} : ∀ {t : List Char},
    t ≠ [] → (∀ c ∈ t, c.isWhitespace = false) →
    wsTokens (t ++ ' ' :: suffix) = t :: wsTokens suffix := by
  intro t
  induction t with
  | nil => intro hne _; exact absurd rfl hne
  | cons c t' ih =>
    intro hne hnw
    have hc : c.isWhitespace = false := hnw c (List.mem_cons_self c t')
    cases t' with
    | nil =>
      show wsTokens (c :: ' ' :: suffix) = [c] :: wsTokens suffix
      rw [wsTokens_cons_ws hc (by decide), wsTokens_ws (by decide)]
    | cons d t'' =>
      have hd : d.isWhitespace = false := hnw d (by simp)
      have hih := ih (by simp) (fun x hx => hnw x (List.mem_cons_of_mem c hx))
      show wsTokens (c :: ((d :: t'') ++ ' ' :: suffix)) = (c :: d :: t'') :: wsTokens suffix
      rw [show (d :: t'') ++ ' ' :: suffix = d :: (t'' ++ ' ' :: suffix) from rfl]
      rw [wsTokens_cons_nws hc hd]
      rw [show d :: (t'' ++ ' ' :: suffix) = (d :: t'') ++ ' ' :: suffix from rfl, hih]

/-- A whitespace-free nonempty string scans as a single token. -/
theorem wsTokens_single : ∀ {t : List Char}, t ≠ [] →
    (∀ c ∈ t, c.isWhitespace = false) → wsTokens t = [t] := by
  intro t
  induction t with
  | nil => intro hne _; exact absurd rfl hne
  | cons c t' ih =>
    intro hne hnw
    have hc : c.isWhitespace = false := hnw c (List.mem_cons_self c t')
    cases t' with
    | nil => exact wsTokens_cons_single hc
    | cons d t'' =>
      have hd : d.isWhitespace = false := hnw d (by simp)
      have hih := ih (by simp) (fun x hx => hnw x (List.mem_cons_of_mem c hx))
      rw [wsTokens_cons_nws hc hd, hih]

/-- Scanning tokens back out of a single-space join recovers them. -/
theorem wsTokens_joinWith : ∀ {ts : List (List Char)},
    (∀ t ∈ ts, t ≠ [] ∧ ∀ c ∈ t, c.isWhitespace = false) →
    wsTokens (joinWith ' ' ts) = ts := by
  intro ts
  induction ts with
  | nil => intro _; rfl
  | cons t ts ih =>
    intro h
    cases ts with
    | nil =>
      exact wsTokens_single (h t (by simp)).1 (h t (by simp)).2
    | cons t2 ts2 =>
      rw [show joinWith ' ' (t :: t2 :: ts2) = t ++ ' ' :: joinWith ' ' (t2 :: ts2) from rfl]
      rw [wsTokens_append_sep (h t (by simp)).1 (h t (by simp)).2]
      rw [ih (fun u hu => h u (List.mem_cons_of_mem t hu))]

/-! ## Concrete fixtures for the scenarios -/

/-- The base URL `https://example.com/` of the concrete scenarios. -/
def exampleBase : Url := ⟨"https", "example.com", [""], none, none⟩

/-- The base URL `https://example.com/page` of the fragment scenario. -/
def pageBase : Url := ⟨"https", "example.com", ["page"], none, none⟩

/-- A base URL on a different origin, to exhibit base-independence. -/
def otherBase : Url := ⟨"http", "other.org", [""], none, none⟩

/-- An anchor with an absolute `href`. -/
def anchorAbs : Node := Node.elem "a" [("href", "https://example.com")] [Node.text "Link"]

/-- The fragment-only anchor of Scenario 4. -/
def anchorFrag : Node := Node.elem "a" [("href", "#section")] [Node.text "Jump"]

/-- An anchor whose `href` (`//` — protocol-relative with empty host)
neither parses absolutely nor resolves against any base. -/
def anchorBad : Node := Node.elem "a" [("href", "//")] [Node.text "Bad"]

/-- A plain resolvable relative anchor. -/
def anchorGood : Node := Node.elem "a" [("href", "/one")] [Node.text "Good"]

/-- The href-less anchor of Scenario 3. -/
def anchorNoHref : Node := Node.elem "a" [] [Node.text "No href"]

/-- An anchor with nested markup and ragged whitespace in its text. -/
def anchorNested : Node :=
  Node.elem "a" [("href", "/one")] [Node.text " B ", Node.elem "b" [] [Node.text " bold "]]

/-! ## Claims -/

/-- C1: for every anchor element whose `href` parses on its own as a
syntactically valid absolute URL, `extract_links` emits a `LinkInfo` whose
`url` is the canonical re-serialization of that URL, for every base:
extraction is the document-order anchor list filtered through the
per-element step, and that step, on an absolutely parsable `href`, emits
the parsed URL's serialization for an arbitrary base `base2` that the
result does not mention — absolute parsing is tried before, and preferred
over, base-relative resolution. -/
theorem spec2proof_c1 (html : String) (base base2 : Url) (el : Node) (href : String)
    (u : Url) (h1 : Node.attr el "href" = some href) (h2 : Url.parse href = some u) :
    extract_links html base = (anchorElems html).filterMap (emitLink base) ∧
    emitLink base2 el = some ⟨u.toString, normalize_link_text (Node.textContent el)⟩ :=
  ⟨extract_links_eq html base, emitLink_absolute h1 h2⟩

theorem spec2proof_c1_witness :
    emitLink exampleBase anchorAbs = some ⟨"https://example.com/", "Link"⟩ ∧
    emitLink otherBase anchorAbs = some ⟨"https://example.com/", "Link"⟩ :=
  ⟨(spec2proof_c1 "" exampleBase exampleBase anchorAbs "https://example.com"
      ⟨"https", "example.com", [""], none, none⟩ (by decide) (by decide)).2,
   (spec2proof_c1 "" exampleBase otherBase anchorAbs "https://example.com"
      ⟨"https", "example.com", [""], none, none⟩ (by decide) (by decide)).2⟩

/-- C2: for every anchor whose `href` does not parse as an absolute URL,
the emitted `url` is the RFC 3986 resolution of the `href` against the
base (`Url.join`, covering relative-path, protocol-relative,
fragment-only and query-only forms); in particular the fragment-only
scenario `<a href="#section">Jump</a>` against
`https://example.com/page` yields exactly
`[{url: "https://example.com/page#section", text: "Jump"}]`. -/
theorem spec2proof_c2 (base : Url) (el : Node) (href : String) (u : Url)
    (h1 : Node.attr el "href" = some href) (h2 : Url.parse href = none)
    (h3 : Url.join base href = some u) :
    emitLink base el = some ⟨u.toString, normalize_link_text (Node.textContent el)⟩ ∧
    Url.parse "https://example.com/page" = some pageBase ∧
    extract_links "<a href=\"#section\">Jump</a>" pageBase =
      [⟨"https://example.com/page#section", "Jump"⟩] :=
  ⟨emitLink_relative h1 h2 h3, by decide, by decide⟩

theorem spec2proof_c2_witness :
    emitLink pageBase anchorFrag = some ⟨"https://example.com/page#section", "Jump"⟩ ∧
    Url.parse "https://example.com/page" = some pageBase ∧
    extract_links "<a href=\"#section\">Jump</a>" pageBase =
      [⟨"https://example.com/page#section", "Jump"⟩] :=
  spec2proof_c2 pageBase anchorFrag "#section"
    ⟨"https", "example.com", ["page"], none, some "section"⟩
    (by decide) (by decide) (by decide)

/-- C3: an anchor whose `href` neither parses absolutely nor resolves
against the base emits no entry and raises nothing; the entries of the
anchors before and after it are untouched, and extraction is still the
full document-order anchor list filtered through the per-element step —
no single element can make extraction fail. -/
theorem spec2proof_c3 (html : String) (base : Url) (el : Node) (href : String)
    (pre post : List Node)
    (h1 : Node.attr el "href" = some href) (h2 : Url.parse href = none)
    (h3 : Url.join base href = none) :
    emitLink base el = none ∧
    (pre ++ el :: post).filterMap (emitLink base) =
      pre.filterMap (emitLink base) ++ post.filterMap (emitLink base) ∧
    extract_links html base = (anchorElems html).filterMap (emitLink base) :=
  have hskip := emitLink_skip h1 h2 h3
  ⟨hskip, filterMap_skip pre post hskip, extract_links_eq html base⟩

theorem spec2proof_c3_witness :
    (emitLink exampleBase anchorBad = none ∧
      ([anchorGood] ++ anchorBad :: [anchorGood]).filterMap (emitLink exampleBase) =
        [anchorGood].filterMap (emitLink exampleBase) ++
          [anchorGood].filterMap (emitLink exampleBase) ∧
      extract_links "<a href=\"//\">Bad</a><a href=\"/one\">Good</a>" exampleBase =
        (anchorElems "<a href=\"//\">Bad</a><a href=\"/one\">Good</a>").filterMap
          (emitLink exampleBase)) ∧
    extract_links "<a href=\"//\">Bad</a><a href=\"/one\">Good</a>" exampleBase =
      [⟨"https://example.com/one", "Good"⟩] :=
  ⟨spec2proof_c3 "<a href=\"//\">Bad</a><a href=\"/one\">Good</a>" exampleBase anchorBad
      "//" [anchorGood] [anchorGood] (by decide) (by decide) (by decide),
   by decide⟩

/-- C4: the result preserves document order with no reordering, insertion
or duplication: it equals the document-order list of qualifying anchors
filtered through the per-element step (`List.filterMap`, which keeps the
order of its input and emits at most one entry per element), and a
three-anchor document comes out exactly in order. -/
theorem spec2proof_c4 (html : String) (base : Url) :
    extract_links html base = (anchorElems html).filterMap (emitLink base) ∧
    extract_links "<a href=\"/a\">A</a><a href=\"/b\">B</a><a href=\"/c\">C</a>" exampleBase =
      [⟨"https://example.com/a", "A"⟩, ⟨"https://example.com/b", "B"⟩,
        ⟨"https://example.com/c", "C"⟩] :=
  ⟨extract_links_eq html base, by decide⟩

/-- C5: every `url` in the result of `extract_links` is a syntactically
valid absolute URL string — the URL parser accepts it back — and every
entry comes from a selected anchor whose `href` resolved (the result is
exactly the anchors filtered through the per-element step, which emits
nothing for an unresolvable target). -/
theorem spec2proof_c5 (html : String) (base : Url) :
    (extract_links html base).all (fun li => (Url.parse li.url).isSome) = true ∧
    extract_links html base = (anchorElems html).filterMap (emitLink base) := by
  refine ⟨?_, extract_links_eq html base⟩
  refine List.all_eq_true.mpr ?_
  intro li hli
  rw [extract_links_eq] at hli
  rcases List.mem_filterMap.mp hli with ⟨el, _, hemit⟩
  rcases emitLink_some_inv hemit with ⟨href, u, _, hres, hli2⟩
  have hval : u.Valid = true := by
    rcases hres with h | ⟨_, h2⟩
    · exact parse_valid h
    · exact join_valid h2
  rw [hli2]
  exact parse_toString_isSome hval

/-- C6: an anchor that carries no `href` attribute contributes no
`LinkInfo` (the per-element step yields nothing without the attribute);
in particular `<a>No href</a>` extracts to the empty sequence for every
base. -/
theorem spec2proof_c6 (base base2 : Url) (el : Node)
    (h : Node.attr el "href" = none) :
    emitLink base2 el = none ∧ extract_links "<a>No href</a>" base = [] := by
  refine ⟨emitLink_none_of_no_href h, ?_⟩
  rw [extract_links_eq]
  rw [show anchorElems "<a>No href</a>" = [] from rfl]
  rfl

theorem spec2proof_c6_witness :
    emitLink exampleBase anchorNoHref = none ∧
    extract_links "<a>No href</a>" exampleBase = [] :=
  spec2proof_c6 exampleBase exampleBase anchorNoHref (by decide)

/-- C7: every emitted entry's `text` is the normalization — whitespace
runs collapsed to single spaces, ends trimmed — of the concatenated text
content of the element and its descendants in document order; the empty
text normalizes to the empty string, and an anchor with no text content
is still included, with empty `text`. -/
theorem spec2proof_c7 (base : Url) (el : Node) (li : LinkInfo)
    (h : emitLink base el = some li) :
    li.text = normalize_link_text (Node.textContent el) ∧
    normalize_link_text "" = "" ∧
    extract_links "<a href=\"/one\"></a>" exampleBase =
      [⟨"https://example.com/one", ""⟩] := by
  refine ⟨?_, rfl, by decide⟩
  rcases emitLink_some_inv h with ⟨href, u, _, _, hli2⟩
  rw [hli2]

theorem spec2proof_c7_witness :
    ({ url := "https://example.com/one", text := "B bold" } : LinkInfo).text =
      normalize_link_text (Node.textContent anchorNested) ∧
    normalize_link_text "" = "" ∧
    extract_links "<a href=\"/one\"></a>" exampleBase =
      [⟨"https://example.com/one", ""⟩] :=
  spec2proof_c7 exampleBase anchorNested ⟨"https://example.com/one", "B bold"⟩ (by decide)

/-- C8: text normalization is idempotent — normalizing an
already-normalized string returns it unchanged — and
`"  Link \n Two  "` normalizes to `"Link Two"`. -/
theorem spec2proof_c8 (s : String) :
    normalize_link_text (normalize_link_text s) = normalize_link_text s ∧
    normalize_link_text "  Link \n Two  " = "Link Two" := by
  constructor
  · unfold normalize_link_text
    rw [show (String.mk (joinWith ' ' (wsTokens s.data))).data =
        joinWith ' ' (wsTokens s.data) from rfl]
    rw [wsTokens_joinWith (wsTokens_tokens_ok s.data)]
  · decide

/-- C9: `extract_links` is total: the document parse step is a total
function on strings, the hard-coded selector construction succeeds (so
the `unwrap` cannot panic), and the
fallible view of the extractor returns `some` — the published result —
on every input pair. -/
theorem spec2proof_c9 (html : String) (base : Url) :
    (extract_links? html base).isSome = true ∧
    Selector.parse "a[href]" = some ⟨"a", "href"⟩ ∧
    extract_links? html base = some (extract_links html base) := by
  refine ⟨?_, selector_parse_ahref, ?_⟩
  · rw [extract_links?_eq]
    rfl
  · rw [extract_links?_eq, extract_links_eq]

/-- C10: each anchor contributes at most one entry: the result's length
is bounded by the number of selected anchors, and every selected anchor
carries an `href` attribute, so the bound is the number of href-carrying
anchors of the parsed document. -/
theorem spec2proof_c10 (html : String) (base : Url) :
    (extract_links html base).length ≤ (anchorElems html).length ∧
    (anchorElems html).all (fun el => (Node.attr el "href").isSome) = true := by
  constructor
  · rw [extract_links_eq]
    exact List.length_filterMap_le _ _
  · refine List.all_eq_true.mpr ?_
    intro el hel
    exact attr_isSome_of_mem_anchorElems hel
